import Mathlib

/-!
Verification of the `lup` indexed-loop accumulator library.

The library provides accumulators (`Any`, `All`, `Min`, `Max`, `Sum`, `Prod`,
`Vector`, `Sift`) implementing the `Lup` trait (`start`, `it`, `unwrap`), and a
`lup!` macro whose expansion is a driver loop:

    let mut sum = Lup::start();
    let mut iter = iter;
    while let Some(i) = iter.next() {
        if !sum.it(i, body) { break };
    }
    sum.unwrap()

Here each accumulator's `it` is embedded as a pure function from state, index
and input to a pair of new state and continue-flag, and the driver is `lupRun`,
which folds `it` over a list of inputs paired with consecutive indices and
records the trace of continue-flags, stopping after the first `false`.
Floating-point inputs of `Min`/`Max` are embedded as `Fl`: either `nan` or a
rational number, with the IEEE comparison where `nan` compares `false` against
everything.
-/

namespace Lup

/-- The `Secret` structure of `src/secret.rs`: a value together with optional
evidence (an index or index tuple) justifying it. -/
structure Secret (E T : Type) where
  evidence : Option E
  value : T
  deriving DecidableEq, Repr

/-- Embedding of the floating-point scalars used by `Min`/`Max`: a value is
either the not-a-number value or a (rational-modelled) number. -/
inductive Fl where
  | nan : Fl
  | num (q : ℚ) : Fl
  deriving DecidableEq, Repr

/-- `is_nan` of the source's floats. -/
def Fl.isNan : Fl → Bool
  | .nan => true
  | .num _ => false

/-- IEEE `<` on the embedded floats: any comparison involving `nan` is
`false`. -/
def Fl.lt : Fl → Fl → Bool
  | .num a, .num b => decide (a < b)
  | _, _ => false

/-- IEEE negation on the embedded floats (`nan` stays `nan`). -/
def Fl.neg : Fl → Fl
  | .nan => .nan
  | .num q => .num (-q)

/-- The driver loop of the `lup!` macro (`src/lib.rs`), specialised to an
index range starting at `i` and the list of body values for those indices:
repeatedly calls `it` on the current state, index and value, stops as soon as
`it` returns `false`, and also returns the trace of continue-flags of the
calls it made. -/
def lupRun (it : σ → Nat → α → σ × Bool) : σ → Nat → List α → σ × List Bool
  | s, _, [] => (s, [])
  | s, i, x :: xs =>
    match it s i x with
    | (s2, true) =>
      let r := lupRun it s2 (i + 1) xs
      (r.1, true :: r.2)
    | (s2, false) => (s2, [false])

/-- Index of the first element of a list satisfying `p`, if any. -/
def firstIdx (p : α → Bool) : List α → Option Nat
  | [] => none
  | x :: xs => if p x then some 0 else (firstIdx p xs).map (· + 1)

/-- `Any::start` for the flat loop (`src/any.rs`). -/
def Any.start : Option Nat := none

/-- `Any::it` for the flat loop (`src/any.rs`): a `true` input records the
index and stops the loop. -/
def Any.it (s : Option Nat) (ind : Nat) (val : Bool) : Option Nat × Bool :=
  if val then (some ind, false) else (s, true)

/-- `Any::unwrap` for the flat loop (`src/any.rs`). -/
def Any.unwrap (s : Option Nat) : Secret Nat Bool :=
  ⟨s, s.isSome⟩

/-- `lup!(Any<_>: i by l => l[i])`: the flat `Any` loop over a list of
booleans. -/
def anyLup (l : List Bool) : Secret Nat Bool :=
  Any.unwrap (lupRun Any.it Any.start 0 l).1

/-- `All::start` for the flat loop (`src/all.rs`). -/
def All.start : Option Nat := none

/-- `All::it` for the flat loop (`src/all.rs`): a `false` input records the
index as a counterexample and stops the loop. -/
def All.it (s : Option Nat) (ind : Nat) (val : Bool) : Option Nat × Bool :=
  if !val then (some ind, false) else (s, true)

/-- `All::unwrap` for the flat loop (`src/all.rs`). -/
def All.unwrap (s : Option Nat) : Secret Nat Bool :=
  ⟨s, s.isNone⟩

/-- `lup!(All<_>: i by l => l[i])`: the flat `All` loop over a list of
booleans. -/
def allLup (l : List Bool) : Secret Nat Bool :=
  All.unwrap (lupRun All.it All.start 0 l).1

theorem anyRun_eq (l : List Bool) : ∀ i : Nat,
    (lupRun Any.it none i l).1 = (firstIdx (fun b => b) l).map (· + i) := by
  induction l with
  | nil => intro i; simp [lupRun, firstIdx]
  | cons x xs ih =>
    intro i
    cases x with
    | true => simp [lupRun, Any.it, firstIdx]
    | false =>
      have hstep : Any.it none i false = (none, true) := rfl
      simp only [lupRun, hstep]
      cases h : firstIdx (fun b => b) xs with
      | none => simp [firstIdx, ih (i + 1), h]
      | some k => simp [firstIdx, ih (i + 1), h]; omega

theorem allRun_eq (l : List Bool) : ∀ i : Nat,
    (lupRun All.it none i l).1 = (firstIdx (fun b => !b) l).map (· + i) := by
  induction l with
  | nil => intro i; simp [lupRun, firstIdx]
  | cons x xs ih =>
    intro i
    cases x with
    | false => simp [lupRun, All.it, firstIdx]
    | true =>
      have hstep : All.it none i true = (none, true) := rfl
      simp only [lupRun, hstep]
      cases h : firstIdx (fun b => !b) xs with
      | none => simp [firstIdx, ih (i + 1), h]
      | some k => simp [firstIdx, ih (i + 1), h]; omega

theorem firstIdx_isSome_iff (p : α → Bool) (l : List α) :
    (firstIdx p l).isSome = true ↔ ∃ x ∈ l, p x = true := by
  induction l with
  | nil => simp [firstIdx]
  | cons x xs ih =>
    by_cases h : p x = true
    · simp [firstIdx, h]
    · simp only [firstIdx, if_neg h]
      have hmap : ((firstIdx p xs).map (· + 1)).isSome = (firstIdx p xs).isSome := by
        cases firstIdx p xs <;> simp
      rw [hmap, ih]
      constructor
      · rintro ⟨y, hy, hp⟩; exact ⟨y, List.mem_cons_of_mem _ hy, hp⟩
      · rintro ⟨y, hy, hp⟩
        rcases List.mem_cons.mp hy with hh | hh
        · exact absurd (hh ▸ hp) h
        · exact ⟨y, hh, hp⟩

theorem firstIdx_eq_none_iff (p : α → Bool) (l : List α) :
    firstIdx p l = none ↔ ∀ x ∈ l, p x = false := by
  induction l with
  | nil => simp [firstIdx]
  | cons x xs ih =>
    by_cases h : p x = true
    · simp [firstIdx, h]
    · have hx : p x = false := by simpa using h
      simp only [firstIdx, if_neg h, Option.map_eq_none', ih, List.mem_cons]
      constructor
      · rintro hall y (rfl | hy)
        · exact hx
        · exact hall y hy
      · intro hall y hy
        exact hall y (Or.inr hy)

theorem exists_getD_iff (l : List Bool) :
    (∃ i, l.getD i false = true) ↔ ∃ x ∈ l, x = true := by
  induction l with
  | nil => simp [List.getD]
  | cons x xs ih =>
    constructor
    · rintro ⟨i, hi⟩
      cases i with
      | zero => exact ⟨x, by simp, by simpa using hi⟩
      | succ j =>
        obtain ⟨y, hy, hp⟩ := ih.mp ⟨j, by simpa using hi⟩
        exact ⟨y, by simp [hy], hp⟩
    · rintro ⟨y, hy, hp⟩
      rcases List.mem_cons.mp hy with h | h
      · exact ⟨0, by simp [h ▸ hp]⟩
      · obtain ⟨j, hj⟩ := ih.mpr ⟨y, h, hp⟩
        exact ⟨j + 1, by simpa using hj⟩

theorem forall_getD_iff (l : List Bool) :
    (∀ i, l.getD i true = true) ↔ ∀ x ∈ l, x = true := by
  induction l with
  | nil => simp
  | cons x xs ih =>
    constructor
    · intro h y hy
      rcases List.mem_cons.mp hy with hh | hh
      · have := h 0; simpa [hh] using this
      · exact ih.mp (fun i => by simpa using h (i + 1)) y hh
    · intro h i
      cases i with
      | zero => simpa using h x (by simp)
      | succ j => simpa using ih.mpr (fun y hy => h y (by simp [hy])) j

/-- The evidence of the flat `anyLup` is the first true index. -/
theorem anyLup_evidence (l : List Bool) :
    (anyLup l).evidence = firstIdx (fun b => b) l := by
  simp [anyLup, Any.unwrap, Any.start, anyRun_eq l 0]

/-- The value of the flat `anyLup` is `isSome` of that evidence. -/
theorem anyLup_value (l : List Bool) :
    (anyLup l).value = (firstIdx (fun b => b) l).isSome := by
  simp [anyLup, Any.unwrap, Any.start, anyRun_eq l 0]

/-- The evidence of the flat `allLup` is the first false index. -/
theorem allLup_evidence (l : List Bool) :
    (allLup l).evidence = firstIdx (fun b => !b) l := by
  simp [allLup, All.unwrap, All.start, allRun_eq l 0]

/-- The value of the flat `allLup` is `isNone` of that evidence. -/
theorem allLup_value (l : List Bool) :
    (allLup l).value = (firstIdx (fun b => !b) l).isNone := by
  simp [allLup, All.unwrap, All.start, allRun_eq l 0]

/-- C1: for every finite sequence of booleans fed to the flat `Any`
accumulator through the driver, the result's value is `true` iff some index
holds `true`; the evidence is the first index holding `true` when one exists,
and `none` when the value is `false`. -/
theorem any_flat_correct (l : List Bool) :
    ((anyLup l).value = true ↔ ∃ i, l.getD i false = true) ∧
    (anyLup l).evidence = firstIdx (fun b => b) l ∧
    ((anyLup l).value = false → (anyLup l).evidence = none) := by
  refine ⟨?_, anyLup_evidence l, ?_⟩
  · rw [anyLup_value, firstIdx_isSome_iff, exists_getD_iff]
  · intro h
    rw [anyLup_evidence]
    rw [anyLup_value] at h
    exact Option.not_isSome_iff_eq_none.mp (by simp [h])

/-- Instance of `any_flat_correct` at the concrete input
`[false, true, true]`. -/
theorem any_flat_correct_inst :
    ((anyLup [false, true, true]).value = true ↔
      ∃ i, [false, true, true].getD i false = true) ∧
    (anyLup [false, true, true]).evidence =
      firstIdx (fun b => b) [false, true, true] ∧
    ((anyLup [false, true, true]).value = false →
      (anyLup [false, true, true]).evidence = none) :=
  any_flat_correct [false, true, true]

/-- C2: for every finite sequence of booleans fed to the flat `All`
accumulator through the driver, the result's value is `true` iff every index
holds `true` (vacuously `true` on the empty sequence), the evidence is the
first index holding `false` when one exists, and a `false` value always comes
with such evidence. -/
theorem all_flat_correct (l : List Bool) :
    ((allLup l).value = true ↔ ∀ i, l.getD i true = true) ∧
    (allLup l).evidence = firstIdx (fun b => !b) l ∧
    ((allLup l).value = false → ∃ k, (allLup l).evidence = some k) := by
  refine ⟨?_, allLup_evidence l, ?_⟩
  · rw [allLup_value, forall_getD_iff, Option.isNone_iff_eq_none,
      firstIdx_eq_none_iff]
    constructor
    · intro h x hx
      have := h x hx
      simpa using this
    · intro h x hx
      simp [h x hx]
  · intro h
    rw [allLup_value] at h
    rw [allLup_evidence]
    cases hh : firstIdx (fun b => !b) l with
    | none => simp [hh] at h
    | some k => exact ⟨k, rfl⟩

/-- Instance of `all_flat_correct` at the concrete input `[true, false]`. -/
theorem all_flat_correct_inst :
    ((allLup [true, false]).value = true ↔
      ∀ i, [true, false].getD i true = true) ∧
    (allLup [true, false]).evidence = firstIdx (fun b => !b) [true, false] ∧
    ((allLup [true, false]).value = false →
      ∃ k, (allLup [true, false]).evidence = some k) :=
  all_flat_correct [true, false]

/-- C7: the driver's trace of continue-flags has every flag before the last
equal to `true`, contains at most one `false`, and has at most one flag per
input: once a step returns `false` the driver makes no further step call. -/
theorem driver_early_exit_trace (it : σ → Nat → α → σ × Bool) (s : σ)
    (i : Nat) (xs : List α) :
    (lupRun it s i xs).2.dropLast.all (fun b => b) = true ∧
    (lupRun it s i xs).2.count false ≤ 1 ∧
    (lupRun it s i xs).2.length ≤ xs.length := by
  induction xs generalizing s i with
  | nil => simp [lupRun]
  | cons x xs ih =>
    rcases h : it s i x with ⟨s2, b⟩
    cases b with
    | false => simp [lupRun, h]
    | true =>
      obtain ⟨h1, h2, h3⟩ := ih s2 (i + 1)
      simp only [lupRun, h]
      refine ⟨?_, ?_, by simpa using h3⟩
      · cases hr : (lupRun it s2 (i + 1) xs).2 with
        | nil => simp
        | cons y ys =>
          rw [hr] at h1
          simpa using h1
      · simpa using h2

/-- `Min::start` for the flat loop (`src/min.rs`): evidence `none` and the
`NAN` sentinel as value. -/
def Min.start : Secret Nat Fl := ⟨none, Fl.nan⟩

/-- `Min::it` for the flat loop (`src/min.rs`): when the stored value is
`NaN` or the incoming value is strictly smaller, both value and evidence are
replaced; the loop always continues. -/
def Min.it (s : Secret Nat Fl) (ind : Nat) (val : Fl) : Secret Nat Fl × Bool :=
  (if s.value.isNan || Fl.lt val s.value then ⟨some ind, val⟩ else s, true)

/-- `Min::unwrap` for the flat loop (`src/min.rs`). -/
def Min.unwrap (s : Secret Nat Fl) : Secret Nat Fl := s

/-- `Min::start` for the two-index nested loop (`src/min.rs`). -/
def Min.start2 : Secret (Nat × Nat) Fl := ⟨none, Fl.nan⟩

/-- `Min::it` for the two-index nested loop (`src/min.rs`): on a winning
comparison the update happens only when the inner secret carries evidence. -/
def Min.it2 (s : Secret (Nat × Nat) Fl) (ind : Nat) (val : Secret Nat Fl) :
    Secret (Nat × Nat) Fl × Bool :=
  (if s.value.isNan || Fl.lt val.value s.value then
    match val.evidence with
    | some ind2 => ⟨some (ind, ind2), val.value⟩
    | none => s
  else s, true)

/-- `Min::start` for the three-index nested loop (`src/min.rs`). -/
def Min.start3 : Secret (Nat × Nat × Nat) Fl := ⟨none, Fl.nan⟩

/-- `Min::it` for the three-index nested loop (`src/min.rs`). -/
def Min.it3 (s : Secret (Nat × Nat × Nat) Fl) (ind : Nat)
    (val : Secret (Nat × Nat) Fl) : Secret (Nat × Nat × Nat) Fl × Bool :=
  (if s.value.isNan || Fl.lt val.value s.value then
    match val.evidence with
    | some ab => ⟨some (ind, ab.1, ab.2), val.value⟩
    | none => s
  else s, true)

/-- Modelled from the spec: `src/max.rs` is declared in `lib.rs` but its file
is not present in the sources; per the spec, `Max` mirrors `Min` with the
strict ordering reversed (the incoming value wins when the stored value is
the `NaN` sentinel or the incoming value is strictly greater). `Max::start`
for the flat loop. -/
def Max.start : Secret Nat Fl := ⟨none, Fl.nan⟩

/-- Modelled from the spec: `Max::it` for the flat loop, mirror of
`Min.it` with the comparison reversed (`val > stored`). -/
def Max.it (s : Secret Nat Fl) (ind : Nat) (val : Fl) : Secret Nat Fl × Bool :=
  (if s.value.isNan || Fl.lt s.value val then ⟨some ind, val⟩ else s, true)

/-- Modelled from the spec: `Max::unwrap` for the flat loop. -/
def Max.unwrap (s : Secret Nat Fl) : Secret Nat Fl := s

/-- `lup!(Min<_, _>: i by l => l[i])`: the flat `Min` loop over a list of
(embedded) floats. -/
def minLupF (l : List Fl) : Secret Nat Fl :=
  Min.unwrap (lupRun Min.it Min.start 0 l).1

/-- The flat `Min` loop over a list of plain numbers (no `NaN`s). -/
def minLup (l : List ℚ) : Secret Nat Fl :=
  minLupF (l.map Fl.num)

/-- The flat `Max` loop over a list of (embedded) floats. -/
def maxLupF (l : List Fl) : Secret Nat Fl :=
  Max.unwrap (lupRun Max.it Max.start 0 l).1

/-- The flat `Max` loop over a list of plain numbers (no `NaN`s). -/
def maxLup (l : List ℚ) : Secret Nat Fl :=
  maxLupF (l.map Fl.num)

/-- C10: in the nested two- and three-index `Min` accumulators, when the
incoming inner secret would win the comparison (stored value is `NaN` or the
incoming value is strictly smaller) but carries no evidence, the step leaves
the state entirely unchanged — the improving value is discarded — and still
returns `continue = true`. -/
theorem min_nested_none_discard (s : Secret (Nat × Nat) Fl)
    (t : Secret (Nat × Nat × Nat) Fl) (i j : Nat) (v : Secret Nat Fl)
    (w : Secret (Nat × Nat) Fl)
    (hv : s.value.isNan = true ∨ Fl.lt v.value s.value = true)
    (hve : v.evidence = none)
    (hw : t.value.isNan = true ∨ Fl.lt w.value t.value = true)
    (hwe : w.evidence = none) :
    Min.it2 s i v = (s, true) ∧ Min.it3 t j w = (t, true) := by
  constructor
  · have hcond : (s.value.isNan || Fl.lt v.value s.value) = true := by
      rcases hv with h | h <;> simp [h]
    simp [Min.it2, hcond, hve]
  · have hcond : (t.value.isNan || Fl.lt w.value t.value) = true := by
      rcases hw with h | h <;> simp [h]
    simp [Min.it3, hcond, hwe]

/-- Instance of `min_nested_none_discard` at concrete inputs: the fresh
nested states and an evidence-free inner secret holding `1.0`. -/
theorem min_nested_none_discard_inst :
    Min.it2 Min.start2 0 ⟨none, Fl.num 1⟩ = (Min.start2, true) ∧
    Min.it3 Min.start3 0 ⟨none, Fl.num 1⟩ = (Min.start3, true) :=
  min_nested_none_discard Min.start2 Min.start3 0 0 ⟨none, Fl.num 1⟩
    ⟨none, Fl.num 1⟩ (Or.inl rfl) rfl (Or.inl rfl) rfl

theorem lupRun_cons_true (it : σ → Nat → α → σ × Bool) (s : σ) (i : Nat)
    (x : α) (xs : List α) (h : (it s i x).2 = true) :
    (lupRun it s i (x :: xs)).1 = (lupRun it (it s i x).1 (i + 1) xs).1 := by
  rcases hx : it s i x with ⟨s2, b⟩
  rw [hx] at h
  simp only at h
  subst h
  simp [lupRun, hx]

/-- The state evolution of the flat `Min` loop once the stored value is a
plain number: `e`/`c` are the stored evidence and value, `i` the next index. -/
def minFold (e : Nat) (c : ℚ) (i : Nat) : List ℚ → Nat × ℚ
  | [] => (e, c)
  | x :: xs => if x < c then minFold i x (i + 1) xs else minFold e c (i + 1) xs

theorem minRun_nonNan (l : List ℚ) : ∀ e c i,
    (lupRun Min.it ⟨some e, Fl.num c⟩ i (l.map Fl.num)).1 =
      ⟨some (minFold e c i l).1, Fl.num (minFold e c i l).2⟩ := by
  induction l with
  | nil => intro e c i; simp [lupRun, minFold]
  | cons x xs ih =>
    intro e c i
    by_cases h : x < c
    · have hstep : Min.it ⟨some e, Fl.num c⟩ i (Fl.num x) =
          (⟨some i, Fl.num x⟩, true) := by
        simp [Min.it, Fl.isNan, Fl.lt, h]
      simp only [List.map_cons, lupRun, hstep, minFold, if_pos h]
      exact ih i x (i + 1)
    · have hstep : Min.it ⟨some e, Fl.num c⟩ i (Fl.num x) =
          (⟨some e, Fl.num c⟩, true) := by
        simp [Min.it, Fl.isNan, Fl.lt, h]
      simp only [List.map_cons, lupRun, hstep, minFold, if_neg h]
      exact ih e c (i + 1)

theorem minFold_spec (l : List ℚ) : ∀ e c i,
    ((minFold e c i l).2 = c ∧ (minFold e c i l).1 = e ∧ ∀ x ∈ l, c ≤ x) ∨
    ((minFold e c i l).2 < c ∧ ∃ k, (minFold e c i l).1 = i + k ∧
      l[k]? = some (minFold e c i l).2 ∧ (∀ x ∈ l, (minFold e c i l).2 ≤ x) ∧
      ∀ j, j < k → ∀ y, l[j]? = some y → (minFold e c i l).2 < y) := by
  induction l with
  | nil => intro e c i; left; simp [minFold]
  | cons x xs ih =>
    intro e c i
    by_cases h : x < c
    · simp only [minFold, if_pos h]
      rcases ih i x (i + 1) with ⟨h2, h1, hall⟩ | ⟨hlt, k, hk1, hk2, hall, hfirst⟩
      · right
        refine ⟨by rw [h2]; exact h, 0, by omega, by simp [h2], ?_,
          by intro j hj; omega⟩
        intro y hy
        rcases List.mem_cons.mp hy with rfl | hy
        · exact le_of_eq h2
        · rw [h2]; exact hall y hy
      · right
        refine ⟨lt_trans hlt h, k + 1, by omega, by simpa using hk2, ?_, ?_⟩
        · intro y hy
          rcases List.mem_cons.mp hy with rfl | hy
          · exact le_of_lt hlt
          · exact hall y hy
        · intro j hj y hy
          cases j with
          | zero =>
            simp only [List.getElem?_cons_zero, Option.some_inj] at hy
            exact hy ▸ hlt
          | succ j' =>
            simp only [List.getElem?_cons_succ] at hy
            exact hfirst j' (by omega) y hy
    · simp only [minFold, if_neg h]
      rcases ih e c (i + 1) with ⟨h2, h1, hall⟩ | ⟨hlt, k, hk1, hk2, hall, hfirst⟩
      · left
        refine ⟨h2, h1, ?_⟩
        intro y hy
        rcases List.mem_cons.mp hy with rfl | hy
        · exact le_of_not_lt h
        · exact hall y hy
      · right
        refine ⟨hlt, k + 1, by omega, by simpa using hk2, ?_, ?_⟩
        · intro y hy
          rcases List.mem_cons.mp hy with rfl | hy
          · exact le_of_lt (lt_of_lt_of_le hlt (le_of_not_lt h))
          · exact hall y hy
        · intro j hj y hy
          cases j with
          | zero =>
            simp only [List.getElem?_cons_zero, Option.some_inj] at hy
            exact hy ▸ lt_of_lt_of_le hlt (le_of_not_lt h)
          | succ j' =>
            simp only [List.getElem?_cons_succ] at hy
            exact hfirst j' (by omega) y hy

theorem minLup_spec (x : ℚ) (xs : List ℚ) :
    ∃ m k, (minLup (x :: xs)).value = Fl.num m ∧
      (minLup (x :: xs)).evidence = some k ∧
      (x :: xs)[k]? = some m ∧ (∀ y ∈ x :: xs, m ≤ y) ∧
      ∀ j, j < k → ∀ y, (x :: xs)[j]? = some y → m < y := by
  have hstep : Min.it Min.start 0 (Fl.num x) = (⟨some 0, Fl.num x⟩, true) := by
    simp [Min.it, Min.start, Fl.isNan]
  have hrun : minLup (x :: xs) =
      (lupRun Min.it ⟨some 0, Fl.num x⟩ 1 (xs.map Fl.num)).1 := by
    simp only [minLup, minLupF, Min.unwrap, List.map_cons, lupRun, hstep]
  rw [hrun, minRun_nonNan xs 0 x 1]
  rcases minFold_spec xs 0 x 1 with ⟨h2, h1, hall⟩ | ⟨hlt, k, hk1, hk2, hall, hfirst⟩
  · refine ⟨x, 0, by simp [h2], by simp [h1], by simp, ?_, by intro j hj; omega⟩
    intro y hy
    rcases List.mem_cons.mp hy with rfl | hy
    · exact le_refl y
    · exact hall y hy
  · refine ⟨(minFold 0 x 1 xs).2, k + 1, rfl, by simp [hk1]; omega,
      by simpa using hk2, ?_, ?_⟩
    · intro y hy
      rcases List.mem_cons.mp hy with rfl | hy
      · exact le_of_lt hlt
      · exact hall y hy
    · intro j hj y hy
      cases j with
      | zero =>
        simp only [List.getElem?_cons_zero, Option.some_inj] at hy
        exact hy ▸ hlt
      | succ j' =>
        simp only [List.getElem?_cons_succ] at hy
        exact hfirst j' (by omega) y hy

/-- Negation lifted to secrets: used to transfer `Min` facts to `Max`. -/
def negSec (s : Secret E Fl) : Secret E Fl := ⟨s.evidence, s.value.neg⟩

theorem Fl.neg_invol (f : Fl) : f.neg.neg = f := by
  cases f <;> simp [Fl.neg]

theorem negSec_invol (s : Secret E Fl) : negSec (negSec s) = s := by
  simp [negSec, Fl.neg_invol]

theorem Fl.isNan_neg (f : Fl) : f.neg.isNan = f.isNan := by
  cases f <;> rfl

theorem Fl.lt_neg (a b : Fl) : Fl.lt a.neg b.neg = Fl.lt b a := by
  cases a with
  | nan => cases b <;> rfl
  | num qa =>
    cases b with
    | nan => rfl
    | num qb => simp [Fl.neg, Fl.lt]

theorem max_it_eq (s : Secret Nat Fl) (i : Nat) (v : Fl) :
    Max.it s i v =
      (negSec (Min.it (negSec s) i v.neg).1, (Min.it (negSec s) i v.neg).2) := by
  have hcond : ((negSec s).value.isNan || Fl.lt v.neg (negSec s).value) =
      (s.value.isNan || Fl.lt s.value v) := by
    simp [negSec, Fl.isNan_neg, Fl.lt_neg]
  simp only [Max.it, Min.it, hcond]
  cases h : s.value.isNan || Fl.lt s.value v
  · simp [negSec_invol]
  · simp [negSec, Fl.neg_invol]

theorem maxRun_eq (l : List Fl) : ∀ (s : Secret Nat Fl) (i : Nat),
    (lupRun Max.it s i l).1 =
      negSec (lupRun Min.it (negSec s) i (l.map Fl.neg)).1 := by
  induction l with
  | nil => intro s i; simp [lupRun, negSec_invol]
  | cons x xs ih =>
    intro s i
    rw [List.map_cons,
      lupRun_cons_true Max.it s i x xs rfl,
      lupRun_cons_true Min.it (negSec s) i x.neg (xs.map Fl.neg) rfl,
      ih (Max.it s i x).1 (i + 1)]
    have : negSec (Max.it s i x).1 = (Min.it (negSec s) i x.neg).1 := by
      rw [max_it_eq]
      exact negSec_invol _
    rw [this]

theorem maxLup_spec (x : ℚ) (xs : List ℚ) :
    ∃ m k, (maxLup (x :: xs)).value = Fl.num m ∧
      (maxLup (x :: xs)).evidence = some k ∧
      (x :: xs)[k]? = some m ∧ (∀ y ∈ x :: xs, y ≤ m) ∧
      ∀ j, j < k → ∀ y, (x :: xs)[j]? = some y → y < m := by
  have hmap : ((x :: xs).map Fl.num).map Fl.neg =
      ((x :: xs).map (fun q => -q)).map Fl.num := by
    simp only [List.map_map]
    rfl
  have hstart : negSec Max.start = Min.start := rfl
  have hrun : maxLup (x :: xs) =
      negSec (minLup ((x :: xs).map (fun q => -q))) := by
    simp only [maxLup, maxLupF, Max.unwrap, minLup, minLupF, Min.unwrap,
      maxRun_eq, hstart, hmap]
  obtain ⟨m, k, hv, he, hg, hle, hfirst⟩ :=
    minLup_spec (-x) (xs.map (fun q => -q))
  refine ⟨-m, k, ?_, ?_, ?_, ?_, ?_⟩
  · rw [hrun]
    simp only [List.map_cons] at hv ⊢
    simp [negSec, hv, Fl.neg]
  · rw [hrun]
    simp only [List.map_cons] at he ⊢
    simp [negSec, he]
  · have hg' : ((x :: xs).map (fun q => -q))[k]? = some m := by
      simpa using hg
    rw [List.getElem?_map] at hg'
    rcases hz : (x :: xs)[k]? with _ | z
    · rw [hz] at hg'; simp at hg'
    · rw [hz] at hg'
      simp only [Option.map_some', Option.some_inj] at hg'
      rw [← hg']
      simp
  · intro y hy
    have : -y ∈ (-x) :: xs.map (fun q => -q) := by
      rcases List.mem_cons.mp hy with rfl | hy
      · exact List.mem_cons_self _ _
      · exact List.mem_cons_of_mem _ (List.mem_map_of_mem _ hy)
    have := hle (-y) this
    linarith
  · intro j hj y hy
    have hmem : ((-x) :: xs.map (fun q => -q))[j]? = some (-y) := by
      have : ((x :: xs).map (fun q => -q))[j]? = some (-y) := by
        rw [List.getElem?_map, hy]
        rfl
      simpa using this
    have := hfirst j hj (-y) hmem
    linarith

/-- C4: for every non-empty sequence of non-`NaN` floats fed to the flat
`Min` accumulator, the result's value is the minimum of the sequence and the
evidence is `some` of the first index attaining it (all earlier elements are
strictly greater, so ties keep the earliest evidence); symmetrically the flat
`Max` accumulator yields the maximum with the first index attaining it. -/
theorem min_max_first_extremum (l : List ℚ) (hne : l ≠ []) :
    (∃ m k, (minLup l).value = Fl.num m ∧ (minLup l).evidence = some k ∧
      l[k]? = some m ∧ (∀ y ∈ l, m ≤ y) ∧
      ∀ j, j < k → ∀ y, l[j]? = some y → m < y) ∧
    (∃ m k, (maxLup l).value = Fl.num m ∧ (maxLup l).evidence = some k ∧
      l[k]? = some m ∧ (∀ y ∈ l, y ≤ m) ∧
      ∀ j, j < k → ∀ y, l[j]? = some y → y < m) := by
  cases l with
  | nil => exact absurd rfl hne
  | cons x xs => exact ⟨minLup_spec x xs, maxLup_spec x xs⟩

/-- Instance of `min_max_first_extremum` at the concrete input `[2, 1, 1]`:
the minimum `1` is first attained at index `1`, the maximum `2` at index
`0`. -/
theorem min_max_first_extremum_inst :
    ([2, 1, 1] : List ℚ) ≠ [] ∧
    ((∃ m k, (minLup [2, 1, 1]).value = Fl.num m ∧
        (minLup [2, 1, 1]).evidence = some k ∧
        ([2, 1, 1] : List ℚ)[k]? = some m ∧ (∀ y ∈ ([2, 1, 1] : List ℚ), m ≤ y) ∧
        ∀ j, j < k → ∀ y, ([2, 1, 1] : List ℚ)[j]? = some y → m < y) ∧
      (∃ m k, (maxLup [2, 1, 1]).value = Fl.num m ∧
        (maxLup [2, 1, 1]).evidence = some k ∧
        ([2, 1, 1] : List ℚ)[k]? = some m ∧ (∀ y ∈ ([2, 1, 1] : List ℚ), y ≤ m) ∧
        ∀ j, j < k → ∀ y, ([2, 1, 1] : List ℚ)[j]? = some y → y < m)) :=
  ⟨by simp, min_max_first_extremum [2, 1, 1] (by simp)⟩

/-- One step of the flat `Min` loop on an explicit (index, value) pair, as
fed by the driver. -/
def minItP (s : Secret Nat Fl) (p : Nat × Fl) : Secret Nat Fl :=
  (Min.it s p.1 p.2).1

/-- The flat `Min` loop folded over an explicit list of (index, value)
pairs; since `Min::it` always continues, the driver's run is this left
fold. -/
def minFoldP (s : Secret Nat Fl) : List (Nat × Fl) → Secret Nat Fl
  | [] => s
  | p :: ps => minFoldP (minItP s p) ps

/-- One step of the flat `Max` loop on an explicit (index, value) pair. -/
def maxItP (s : Secret Nat Fl) (p : Nat × Fl) : Secret Nat Fl :=
  (Max.it s p.1 p.2).1

/-- The flat `Max` loop folded over an explicit list of (index, value)
pairs. -/
def maxFoldP (s : Secret Nat Fl) : List (Nat × Fl) → Secret Nat Fl
  | [] => s
  | p :: ps => maxFoldP (maxItP s p) ps

theorem minRun_eq_foldP (l : List Fl) : ∀ (s : Secret Nat Fl) (i : Nat),
    (lupRun Min.it s i l).1 = minFoldP s (l.enumFrom i) := by
  induction l with
  | nil => intro s i; simp [lupRun, List.enumFrom, minFoldP]
  | cons x xs ih =>
    intro s i
    rw [lupRun_cons_true Min.it s i x xs rfl]
    simp only [List.enumFrom, minFoldP]
    exact ih (Min.it s i x).1 (i + 1)

theorem maxRun_eq_foldP (l : List Fl) : ∀ (s : Secret Nat Fl) (i : Nat),
    (lupRun Max.it s i l).1 = maxFoldP s (l.enumFrom i) := by
  induction l with
  | nil => intro s i; simp [lupRun, List.enumFrom, maxFoldP]
  | cons x xs ih =>
    intro s i
    rw [lupRun_cons_true Max.it s i x xs rfl]
    simp only [List.enumFrom, maxFoldP]
    exact ih (Max.it s i x).1 (i + 1)

theorem min_nan_never_wins (s : Secret Nat Fl) (p : Nat × Fl)
    (h1 : s.value.isNan = false) (h2 : p.2.isNan = true) : minItP s p = s := by
  have hlt : Fl.lt p.2 s.value = false := by
    rcases p with ⟨i, f⟩
    cases f with
    | nan => cases s.value <;> rfl
    | num q => simp [Fl.isNan] at h2
  simp [minItP, Min.it, h1, hlt]

theorem max_nan_never_wins (s : Secret Nat Fl) (p : Nat × Fl)
    (h1 : s.value.isNan = false) (h2 : p.2.isNan = true) : maxItP s p = s := by
  have hlt : Fl.lt s.value p.2 = false := by
    rcases p with ⟨i, f⟩
    cases f with
    | nan => cases s.value <;> rfl
    | num q => simp [Fl.isNan] at h2
  simp [maxItP, Max.it, h1, hlt]

theorem min_nan_state_step (s : Secret Nat Fl) (p : Nat × Fl)
    (h : s.value.isNan = true) : minItP s p = ⟨some p.1, p.2⟩ := by
  simp [minItP, Min.it, h]

theorem minItP_nonNan (s : Secret Nat Fl) (p : Nat × Fl)
    (hs : s.value.isNan = false) (hp : p.2.isNan = false) :
    (minItP s p).value.isNan = false := by
  simp only [minItP, Min.it]
  cases hc : s.value.isNan || Fl.lt p.2 s.value <;> simp [hs, hp]

theorem minFoldP_nonNan_state (ps : List (Nat × Fl)) : ∀ s : Secret Nat Fl,
    s.value.isNan = false →
    minFoldP s ps = minFoldP s (ps.filter (fun q => !q.2.isNan)) := by
  induction ps with
  | nil => intro s _; rfl
  | cons p ps ih =>
    intro s hs
    by_cases hp : p.2.isNan = true
    · rw [List.filter_cons, if_neg (by simp [hp])]
      show minFoldP (minItP s p) ps = _
      rw [min_nan_never_wins s p hs hp]
      exact ih s hs
    · have hp' : p.2.isNan = false := by simpa using hp
      rw [List.filter_cons, if_pos (by simp [hp'])]
      show minFoldP (minItP s p) ps =
        minFoldP (minItP s p) (ps.filter (fun q => !q.2.isNan))
      exact ih (minItP s p) (minItP_nonNan s p hs hp')

theorem minFoldP_nan_start (ps : List (Nat × Fl)) :
    ∀ s : Secret Nat Fl, s.value.isNan = true →
    (∃ q ∈ ps, q.2.isNan = false) →
    minFoldP s ps =
      minFoldP Min.start (ps.filter (fun q => !q.2.isNan)) := by
  induction ps with
  | nil => intro s _ h; exact absurd h (by simp)
  | cons p ps ih =>
    intro s hs hex
    by_cases hp : p.2.isNan = true
    · rw [List.filter_cons, if_neg (by simp [hp])]
      show minFoldP (minItP s p) ps = _
      rw [min_nan_state_step s p hs]
      refine ih ⟨some p.1, p.2⟩ hp ?_
      rcases hex with ⟨q, hq, hqn⟩
      rcases List.mem_cons.mp hq with rfl | hq
      · rw [hp] at hqn; cases hqn
      · exact ⟨q, hq, hqn⟩
    · have hp' : p.2.isNan = false := by simpa using hp
      rw [List.filter_cons, if_pos (by simp [hp'])]
      show minFoldP (minItP s p) ps =
        minFoldP (minItP Min.start p) (ps.filter (fun q => !q.2.isNan))
      rw [min_nan_state_step s p hs, min_nan_state_step Min.start p rfl]
      exact minFoldP_nonNan_state ps ⟨some p.1, p.2⟩ hp'

theorem max_it_p_eq (s : Secret Nat Fl) (p : Nat × Fl) :
    maxItP s p = negSec (minItP (negSec s) (p.1, p.2.neg)) := by
  simp only [maxItP, minItP, max_it_eq s p.1 p.2]

theorem maxFoldP_eq (ps : List (Nat × Fl)) : ∀ s : Secret Nat Fl,
    maxFoldP s ps =
      negSec (minFoldP (negSec s) (ps.map (fun q => (q.1, q.2.neg)))) := by
  induction ps with
  | nil => intro s; simp [maxFoldP, minFoldP, negSec_invol]
  | cons p ps ih =>
    intro s
    simp only [List.map_cons, maxFoldP, minFoldP]
    rw [ih (maxItP s p), max_it_p_eq, negSec_invol]

theorem filter_map_negP (qs : List (Nat × Fl)) :
    (qs.filter (fun q => !q.2.isNan)).map (fun q => (q.1, q.2.neg)) =
      (qs.map (fun q => (q.1, q.2.neg))).filter (fun q => !q.2.isNan) := by
  induction qs with
  | nil => rfl
  | cons q qs ih =>
    by_cases hq : q.2.isNan = true
    · simp [List.filter_cons, hq, Fl.isNan_neg, ih]
    · have hq' : q.2.isNan = false := by simpa using hq
      simp [List.filter_cons, hq', Fl.isNan_neg, ih]

theorem maxFoldP_nan_start (ps : List (Nat × Fl))
    (hex : ∃ q ∈ ps, q.2.isNan = false) :
    maxFoldP Max.start ps =
      maxFoldP Max.start (ps.filter (fun q => !q.2.isNan)) := by
  rw [maxFoldP_eq, maxFoldP_eq]
  have hstart : negSec Max.start = Min.start := rfl
  rw [hstart, filter_map_negP]
  congr 1
  refine minFoldP_nan_start _ Min.start rfl ?_
  rcases hex with ⟨q, hq, hqn⟩
  exact ⟨(q.1, q.2.neg), List.mem_map_of_mem _ hq, by
    simpa [Fl.isNan_neg] using hqn⟩

/-- C3 (counterexample): on the input sequence `[NaN, 1.0]`, which contains a
non-NaN value, the driver's state after the first step stores the NaN element
at index `0` as the current extremum (its evidence `some 0` marks it as
selected), so a NaN element can be selected as the stored extremum mid-run;
the full run still finishes at `(some 1, 1.0)`. -/
theorem min_nan_stored_counterexample :
    (Min.it Min.start 0 Fl.nan).1 = ⟨some 0, Fl.nan⟩ ∧
    (Min.it Min.start 0 Fl.nan).2 = true ∧
    (lupRun Min.it Min.start 0 [Fl.nan, Fl.num 1]).1 =
      (lupRun Min.it (Min.it Min.start 0 Fl.nan).1 1 [Fl.num 1]).1 ∧
    (lupRun Min.it Min.start 0 [Fl.nan, Fl.num 1]).1 = ⟨some 1, Fl.num 1⟩ := by
  refine ⟨rfl, rfl, rfl, ?_⟩
  simp [lupRun, Min.it, Min.start, Fl.isNan]

/-- C3 (amended): a NaN input never replaces a non-NaN stored extremum, but
while the stored value is still NaN (the initial sentinel, or a previously
stored NaN input) any input — including NaN — is stored; consequently, for
every pair sequence containing at least one non-NaN value, the final value
and evidence equal those of the run with the NaN pairs removed (indices
preserved). The driver's flat run coincides with the pair fold over the
index-enumerated inputs. `Max` (modelled from the spec, `src/max.rs` being
absent) behaves symmetrically. -/
theorem min_max_nan_amended (s : Secret Nat Fl) (p : Nat × Fl)
    (ps : List (Nat × Fl)) (l : List Fl)
    (h1 : s.value.isNan = false) (h2 : p.2.isNan = true)
    (h3 : ∃ q ∈ ps, q.2.isNan = false) :
    minItP s p = s ∧
    minFoldP Min.start ps =
      minFoldP Min.start (ps.filter (fun q => !q.2.isNan)) ∧
    (lupRun Min.it Min.start 0 l).1 = minFoldP Min.start (l.enumFrom 0) ∧
    maxItP s p = s ∧
    maxFoldP Max.start ps =
      maxFoldP Max.start (ps.filter (fun q => !q.2.isNan)) ∧
    (lupRun Max.it Max.start 0 l).1 = maxFoldP Max.start (l.enumFrom 0) :=
  ⟨min_nan_never_wins s p h1 h2,
   minFoldP_nan_start ps Min.start rfl h3,
   minRun_eq_foldP l Min.start 0,
   max_nan_never_wins s p h1 h2,
   maxFoldP_nan_start ps h3,
   maxRun_eq_foldP l Max.start 0⟩

/-- Instance of `min_max_nan_amended` at concrete inputs: stored extremum
`1.0` at index 0, an incoming NaN at index 1, and the pair sequence
`[(0, NaN), (1, 2.0)]`. -/
theorem min_max_nan_amended_inst :
    minItP ⟨some 0, Fl.num 1⟩ (1, Fl.nan) = ⟨some 0, Fl.num 1⟩ ∧
    minFoldP Min.start [(0, Fl.nan), (1, Fl.num 2)] =
      minFoldP Min.start
        ([(0, Fl.nan), (1, Fl.num 2)].filter (fun q => !q.2.isNan)) ∧
    (lupRun Min.it Min.start 0 [Fl.nan, Fl.num 2]).1 =
      minFoldP Min.start ([Fl.nan, Fl.num 2].enumFrom 0) ∧
    maxItP ⟨some 0, Fl.num 1⟩ (1, Fl.nan) = ⟨some 0, Fl.num 1⟩ ∧
    maxFoldP Max.start [(0, Fl.nan), (1, Fl.num 2)] =
      maxFoldP Max.start
        ([(0, Fl.nan), (1, Fl.num 2)].filter (fun q => !q.2.isNan)) ∧
    (lupRun Max.it Max.start 0 [Fl.nan, Fl.num 2]).1 =
      maxFoldP Max.start ([Fl.nan, Fl.num 2].enumFrom 0) :=
  min_max_nan_amended ⟨some 0, Fl.num 1⟩ (1, Fl.nan)
    [(0, Fl.nan), (1, Fl.num 2)] [Fl.nan, Fl.num 2] rfl rfl
    ⟨(1, Fl.num 2), by simp, rfl⟩

/-- `Any::start` for the two-index nested loop (`src/any.rs`). -/
def Any.start2 : Option (Nat × Nat) := none

/-- `Any::it` for the two-index nested loop (`src/any.rs`): a `true` inner
secret carrying evidence stops the loop and records the index pair; a `true`
inner secret without evidence is skipped. -/
def Any.it2 (s : Option (Nat × Nat)) (ind : Nat) (val : Secret Nat Bool) :
    Option (Nat × Nat) × Bool :=
  if val.value then
    match val.evidence with
    | some ind2 => (some (ind, ind2), false)
    | none => (s, true)
  else (s, true)

/-- `Any::unwrap` for the two-index nested loop (`src/any.rs`). -/
def Any.unwrap2 (s : Option (Nat × Nat)) : Secret (Nat × Nat) Bool :=
  ⟨s, s.isSome⟩

/-- `All::start` for the two-index nested loop (`src/all.rs`). -/
def All.start2 : Option (Nat × Nat) := none

/-- `All::it` for the two-index nested loop (`src/all.rs`): a `false` inner
secret carrying evidence stops the loop and records the counterexample index
pair; a `false` inner secret without evidence is skipped. -/
def All.it2 (s : Option (Nat × Nat)) (ind : Nat) (val : Secret Nat Bool) :
    Option (Nat × Nat) × Bool :=
  if val.value then (s, true)
  else
    match val.evidence with
    | some ind2 => (some (ind, ind2), false)
    | none => (s, true)

/-- `All::unwrap` for the two-index nested loop (`src/all.rs`). -/
def All.unwrap2 (s : Option (Nat × Nat)) : Secret (Nat × Nat) Bool :=
  ⟨s, s.isNone⟩

/-- `lup!(Any<_>: i, j by g => g[i][j])`: the macro expands the two-level
loop into an outer `Any` run whose body values are the inner flat `Any` runs
on each row. -/
def anyLup2 (g : List (List Bool)) : Secret (Nat × Nat) Bool :=
  Any.unwrap2 (lupRun Any.it2 Any.start2 0 (g.map anyLup)).1

/-- `lup!(All<_>: i, j by g => g[i][j])`: outer `All` over the inner flat
`All` runs on each row. -/
def allLup2 (g : List (List Bool)) : Secret (Nat × Nat) Bool :=
  All.unwrap2 (lupRun All.it2 All.start2 0 (g.map allLup)).1

/-- Specification-side definition for the refinement claim: the first
position holding `true` in row-major (outer index, then inner index) order
over the cross product of the two index ranges. -/
def flatAnyEvidence : List (List Bool) → Option (Nat × Nat)
  | [] => none
  | row :: rest =>
    match firstIdx (fun b => b) row with
    | some j => some (0, j)
    | none => (flatAnyEvidence rest).map (fun p => (p.1 + 1, p.2))

/-- Specification-side definition: the result direct flattened row-major
iteration of the existential would produce. -/
def flatAnySpec (g : List (List Bool)) : Secret (Nat × Nat) Bool :=
  ⟨flatAnyEvidence g, (flatAnyEvidence g).isSome⟩

/-- Specification-side definition: the first position holding `false` in
row-major order. -/
def flatAllEvidence : List (List Bool) → Option (Nat × Nat)
  | [] => none
  | row :: rest =>
    match firstIdx (fun b => !b) row with
    | some j => some (0, j)
    | none => (flatAllEvidence rest).map (fun p => (p.1 + 1, p.2))

/-- Specification-side definition: the result direct flattened row-major
iteration of the universal would produce. -/
def flatAllSpec (g : List (List Bool)) : Secret (Nat × Nat) Bool :=
  ⟨flatAllEvidence g, (flatAllEvidence g).isNone⟩

theorem anyRun2_eq (g : List (List Bool)) : ∀ i : Nat,
    (lupRun Any.it2 none i (g.map anyLup)).1 =
      (flatAnyEvidence g).map (fun p => (p.1 + i, p.2)) := by
  induction g with
  | nil => intro i; simp [lupRun, flatAnyEvidence]
  | cons row rest ih =>
    intro i
    cases hj : firstIdx (fun b => b) row with
    | some j =>
      have hv : (anyLup row).value = true := by rw [anyLup_value, hj]; rfl
      have he : (anyLup row).evidence = some j := by rw [anyLup_evidence, hj]
      have hstep : Any.it2 none i (anyLup row) = (some (i, j), false) := by
        simp [Any.it2, hv, he]
      simp [lupRun, hstep, flatAnyEvidence, hj]
    | none =>
      have hv : (anyLup row).value = false := by rw [anyLup_value, hj]; rfl
      have hstep : Any.it2 none i (anyLup row) = (none, true) := by
        simp [Any.it2, hv]
      simp only [List.map_cons, lupRun, hstep]
      rw [ih (i + 1)]
      simp only [flatAnyEvidence, hj]
      cases hrest : flatAnyEvidence rest with
      | none => simp
      | some p => simp; omega

theorem allRun2_eq (g : List (List Bool)) : ∀ i : Nat,
    (lupRun All.it2 none i (g.map allLup)).1 =
      (flatAllEvidence g).map (fun p => (p.1 + i, p.2)) := by
  induction g with
  | nil => intro i; simp [lupRun, flatAllEvidence]
  | cons row rest ih =>
    intro i
    cases hj : firstIdx (fun b => !b) row with
    | some j =>
      have hv : (allLup row).value = false := by rw [allLup_value, hj]; rfl
      have he : (allLup row).evidence = some j := by rw [allLup_evidence, hj]
      have hstep : All.it2 none i (allLup row) = (some (i, j), false) := by
        simp [All.it2, hv, he]
      simp [lupRun, hstep, flatAllEvidence, hj]
    | none =>
      have hv : (allLup row).value = true := by rw [allLup_value, hj]; rfl
      have hstep : All.it2 none i (allLup row) = (none, true) := by
        simp [All.it2, hv]
      simp only [List.map_cons, lupRun, hstep]
      rw [ih (i + 1)]
      simp only [flatAllEvidence, hj]
      cases hrest : flatAllEvidence rest with
      | none => simp
      | some p => simp; omega

theorem anyLup2_eq (g : List (List Bool)) : anyLup2 g = flatAnySpec g := by
  have h := anyRun2_eq g 0
  have h0 : (flatAnyEvidence g).map (fun p => (p.1 + 0, p.2)) =
      flatAnyEvidence g := by
    cases flatAnyEvidence g <;> simp
  simp [anyLup2, Any.unwrap2, Any.start2, flatAnySpec, h, h0]

theorem allLup2_eq (g : List (List Bool)) : allLup2 g = flatAllSpec g := by
  have h := allRun2_eq g 0
  have h0 : (flatAllEvidence g).map (fun p => (p.1 + 0, p.2)) =
      flatAllEvidence g := by
    cases flatAllEvidence g <;> simp
  simp [allLup2, All.unwrap2, All.start2, flatAllSpec, h, h0]

/-- C5: the two-level nested `Any` over inner flat `Any` results and the
two-level nested `All` over inner flat `All` results have a two-tuple
evidence `(outer_index, inner_index)` and equal — value and evidence — what
direct flattened row-major iteration of the predicate over the cross product
of the two index ranges produces. -/
theorem nested_any_all_flat_equiv (g : List (List Bool)) :
    anyLup2 g = flatAnySpec g ∧ allLup2 g = flatAllSpec g :=
  ⟨anyLup2_eq g, allLup2_eq g⟩

/-- `Sum::start` for scalars (`src/sum.rs`). -/
def Sum.start : ℚ := 0

/-- `Sum::it` for scalars (`src/sum.rs`): add and always continue. -/
def Sum.it (s : ℚ) (_ind : Nat) (val : ℚ) : ℚ × Bool := (s + val, true)

/-- `Sum::unwrap` for scalars (`src/sum.rs`). -/
def Sum.unwrap (s : ℚ) : ℚ := s

/-- `Prod::start` for scalars (`src/prod.rs`). -/
def Prod.start : ℚ := 1

/-- `Prod::it` for scalars (`src/prod.rs`): multiply and always continue. -/
def Prod.it (s : ℚ) (_ind : Nat) (val : ℚ) : ℚ × Bool := (s * val, true)

/-- `Prod::unwrap` for scalars (`src/prod.rs`). -/
def Prod.unwrap (s : ℚ) : ℚ := s

/-- `lup!(Sum<_>: i by l => l[i])`: the flat `Sum` loop. -/
def sumLup (l : List ℚ) : ℚ := Sum.unwrap (lupRun Sum.it Sum.start 0 l).1

/-- `lup!(Prod<_>: i by l => l[i])`: the flat `Prod` loop. -/
def prodLup (l : List ℚ) : ℚ := Prod.unwrap (lupRun Prod.it Prod.start 0 l).1

theorem sumRun_eq (l : List ℚ) : ∀ (s : ℚ) (i : Nat),
    lupRun Sum.it s i l = (l.foldl (· + ·) s, l.map fun _ => true) := by
  induction l with
  | nil => intro s i; simp [lupRun]
  | cons x xs ih => intro s i; simp [lupRun, Sum.it, ih]

theorem prodRun_eq (l : List ℚ) : ∀ (s : ℚ) (i : Nat),
    lupRun Prod.it s i l = (l.foldl (· * ·) s, l.map fun _ => true) := by
  induction l with
  | nil => intro s i; simp [lupRun]
  | cons x xs ih => intro s i; simp [lupRun, Prod.it, ih]

/-- C6: the `Sum` accumulator's step always continues (its continue-flag
trace is all-`true`, one flag per element, so there is no early exit) and the
final result is the left fold of addition over the elements in index order
starting from zero; likewise `Prod` with multiplication starting from one. -/
theorem sum_prod_foldl (l : List ℚ) :
    sumLup l = l.foldl (· + ·) 0 ∧
    (lupRun Sum.it Sum.start 0 l).2 = l.map (fun _ => true) ∧
    prodLup l = l.foldl (· * ·) 1 ∧
    (lupRun Prod.it Prod.start 0 l).2 = l.map (fun _ => true) := by
  refine ⟨?_, ?_, ?_, ?_⟩
  · simp [sumLup, Sum.unwrap, Sum.start, sumRun_eq]
  · simp [Sum.start, sumRun_eq]
  · simp [prodLup, Prod.unwrap, Prod.start, prodRun_eq]
  · simp [Prod.start, prodRun_eq]

/-- `Vector::start` (`src/vector.rs`): a fixed-size array (the source
provides sizes 2–4) with every position initialised to the default value
`d`. -/
def Vector.start {T : Type} (n : Nat) (d : T) : List T := List.replicate n d

/-- `Vector::it` (`src/vector.rs`): random-access write of the input value
at the given index, always continuing; `none` models the source's
out-of-range panic. -/
def Vector.it {T : Type} (s : List T) (ind : Nat) (val : T) :
    Option (List T × Bool) :=
  if ind < s.length then some (s.set ind val, true) else none

/-- `Vector::unwrap` (`src/vector.rs`). -/
def Vector.unwrap {T : Type} (s : List T) : List T := s

/-- The driver loop specialised to `Vector`, fed explicit (index, value)
pairs; `none` propagates the out-of-range panic. -/
def vecRun {T : Type} (s : List T) : List (Nat × T) → Option (List T)
  | [] => some s
  | p :: ps =>
    match Vector.it s p.1 p.2 with
    | some (s2, true) => vecRun s2 ps
    | some (s2, false) => some s2
    | none => none

/-- The last value written at position `j` by a sequence of (index, value)
pairs, if any. -/
def lastWrite {T : Type} (j : Nat) : List (Nat × T) → Option T
  | [] => none
  | p :: ps =>
    match lastWrite j ps with
    | some v => some v
    | none => if p.1 = j then some p.2 else none

theorem vecRun_char {T : Type} (ps : List (Nat × T)) : ∀ s : List T,
    (∀ p ∈ ps, p.1 < s.length) →
    ∃ r, vecRun s ps = some r ∧ r.length = s.length ∧
      ∀ j, j < s.length →
        r[j]? = ((lastWrite j ps).map some).getD s[j]? := by
  induction ps with
  | nil =>
    intro s _
    exact ⟨s, rfl, rfl, by intro j _; simp [lastWrite]⟩
  | cons p ps ih =>
    intro s h
    have hp : p.1 < s.length := h p (by simp)
    have hstep : Vector.it s p.1 p.2 = some (s.set p.1 p.2, true) := by
      simp [Vector.it, hp]
    obtain ⟨r, hr, hlen, hget⟩ := ih (s.set p.1 p.2) (by
      intro q hq
      rw [List.length_set]
      exact h q (by simp [hq]))
    refine ⟨r, ?_, ?_, ?_⟩
    · simp [vecRun, hstep, hr]
    · rw [hlen, List.length_set]
    · intro j hj
      have hj' : j < (s.set p.1 p.2).length := by
        rw [List.length_set]; exact hj
      rw [hget j hj']
      cases hl : lastWrite j ps with
      | some v => simp [lastWrite, hl]
      | none =>
        simp only [lastWrite, hl, Option.map_none', Option.getD_none]
        by_cases hpj : p.1 = j
        · subst hpj
          rw [if_pos rfl, List.getElem?_set, if_pos rfl, if_pos hp]
          simp
        · rw [if_neg hpj, List.getElem?_set, if_neg hpj]
          simp

/-- C8: for the `Vector` accumulator over a fixed-size array of size
`n ∈ {2, 3, 4}`: the initial state is the array with every position holding
the default value; a step at index `ind < n` writes the input value at
position `ind`, continues, and leaves every other position unchanged; the
run over in-range writes never panics, `unwrap` returns the array, and every
position ends holding the last value written to it — the default value when
it was never written. -/
theorem vector_frame_correct {T : Type} (n : Nat)
    (_hn : n = 2 ∨ n = 3 ∨ n = 4) (d : T) (ps : List (Nat × T))
    (hps : ∀ p ∈ ps, p.1 < n) (s : List T) (ind : Nat) (val : T)
    (hind : ind < s.length) :
    Vector.start n d = List.replicate n d ∧
    (Vector.start n d).length = n ∧
    (∀ j, j < n → (Vector.start n d)[j]? = some d) ∧
    Vector.it s ind val = some (s.set ind val, true) ∧
    (s.set ind val)[ind]? = some val ∧
    (∀ j, j ≠ ind → (s.set ind val)[j]? = s[j]?) ∧
    Vector.unwrap s = s ∧
    ∃ r, vecRun (Vector.start n d) ps = some r ∧ r.length = n ∧
      ∀ j, j < n → r[j]? = some ((lastWrite j ps).getD d) := by
  have hlen : (Vector.start n d).length = n := by
    simp [Vector.start]
  refine ⟨rfl, hlen, ?_, ?_, ?_, ?_, rfl, ?_⟩
  · intro j hj
    simp [Vector.start, List.getElem?_replicate, hj]
  · simp [Vector.it, hind]
  · rw [List.getElem?_set, if_pos rfl, if_pos hind]
  · intro j hj
    rw [List.getElem?_set, if_neg (fun hh => hj hh.symm)]
  · obtain ⟨r, hr, hrlen, hget⟩ := vecRun_char ps (Vector.start n d)
      (by intro q hq; rw [hlen]; exact hps q hq)
    refine ⟨r, hr, by rw [hrlen, hlen], ?_⟩
    intro j hj
    have := hget j (by rw [hlen]; exact hj)
    rw [this]
    cases hl : lastWrite j ps with
    | some v => simp
    | none =>
      simp only [Option.map_none', Option.getD_none]
      simp [Vector.start, List.getElem?_replicate, hj]

/-- Instance of `vector_frame_correct` at `n = 3`, default `0`, write
sequence `[(1, 5), (1, 7)]`, and a single step writing `9` at index `0` of
`[0, 0, 0]`. -/
theorem vector_frame_correct_inst :
    Vector.start 3 (0 : ℤ) = List.replicate 3 0 ∧
    (Vector.start 3 (0 : ℤ)).length = 3 ∧
    (∀ j, j < 3 → (Vector.start 3 (0 : ℤ))[j]? = some 0) ∧
    Vector.it [0, 0, 0] 0 (9 : ℤ) = some ([0, 0, 0].set 0 9, true) ∧
    ([0, 0, 0].set 0 (9 : ℤ))[0]? = some 9 ∧
    (∀ j, j ≠ 0 → ([0, 0, 0].set 0 (9 : ℤ))[j]? = [0, 0, 0][j]?) ∧
    Vector.unwrap [0, 0, 0] = ([0, 0, 0] : List ℤ) ∧
    ∃ r, vecRun (Vector.start 3 (0 : ℤ)) [(1, 5), (1, 7)] = some r ∧
      r.length = 3 ∧
      ∀ j, j < 3 → r[j]? = some ((lastWrite j [(1, 5), (1, 7)]).getD 0) :=
  vector_frame_correct 3 (Or.inr (Or.inl rfl)) 0 [(1, 5), (1, 7)]
    (by decide) [0, 0, 0] 0 9 (by decide)

/-- `Neg` for `Secret` (`src/secret.rs`): negate the value, keep the
evidence. -/
def Secret.neg {E : Type} (s : Secret E ℚ) : Secret E ℚ :=
  ⟨s.evidence, -s.value⟩

/-- `Not` for `Secret<_, bool>` (`src/secret.rs`): negate the boolean value,
keep the evidence. -/
def Secret.not {E : Type} (s : Secret E Bool) : Secret E Bool :=
  ⟨s.evidence, !s.value⟩

/-- `Secret::lt` (`src/secret.rs`): compare the value, keep the evidence. -/
def Secret.lt {E : Type} (s : Secret E ℚ) (other : ℚ) : Secret E Bool :=
  ⟨s.evidence, decide (s.value < other)⟩

/-- `Secret::le` (`src/secret.rs`). -/
def Secret.le {E : Type} (s : Secret E ℚ) (other : ℚ) : Secret E Bool :=
  ⟨s.evidence, decide (s.value ≤ other)⟩

/-- `Secret::gt` (`src/secret.rs`). -/
def Secret.gt {E : Type} (s : Secret E ℚ) (other : ℚ) : Secret E Bool :=
  ⟨s.evidence, decide (s.value > other)⟩

/-- `Secret::ge` (`src/secret.rs`). -/
def Secret.ge {E : Type} (s : Secret E ℚ) (other : ℚ) : Secret E Bool :=
  ⟨s.evidence, decide (s.value ≥ other)⟩

/-- `Secret::eq` (`src/secret.rs`). -/
def Secret.eq {E : Type} (s : Secret E ℚ) (other : ℚ) : Secret E Bool :=
  ⟨s.evidence, decide (s.value = other)⟩

/-- `Secret::ne` (`src/secret.rs`): the negation of `eq`. -/
def Secret.ne {E : Type} (s : Secret E ℚ) (other : ℚ) : Secret E Bool :=
  ⟨s.evidence, !decide (s.value = other)⟩

/-- C9: every comparison method on `Secret` (`lt`, `le`, `gt`, `ge`, `eq`,
`ne`) and the negation operators (`Neg`, `Not`) return a secret whose
evidence is exactly the evidence of the input, unchanged; only the value is
replaced by the comparison or negation result. -/
theorem secret_ops_preserve_evidence {E : Type} (s : Secret E ℚ)
    (b : Secret E Bool) (u : ℚ) :
    (s.lt u).evidence = s.evidence ∧ (s.lt u).value = decide (s.value < u) ∧
    (s.le u).evidence = s.evidence ∧ (s.le u).value = decide (s.value ≤ u) ∧
    (s.gt u).evidence = s.evidence ∧ (s.gt u).value = decide (s.value > u) ∧
    (s.ge u).evidence = s.evidence ∧ (s.ge u).value = decide (s.value ≥ u) ∧
    (Secret.eq s u).evidence = s.evidence ∧
    (Secret.eq s u).value = decide (s.value = u) ∧
    (Secret.ne s u).evidence = s.evidence ∧
    (Secret.ne s u).value = !decide (s.value = u) ∧
    s.neg.evidence = s.evidence ∧ s.neg.value = -s.value ∧
    b.not.evidence = b.evidence ∧ b.not.value = !b.value :=
  ⟨rfl, rfl, rfl, rfl, rfl, rfl, rfl, rfl, rfl, rfl, rfl, rfl, rfl, rfl,
   rfl, rfl⟩

end Lup
